import Mathlib

/-!
Verification of the profile store of `buteo-syncfw`
(`src/libsyncprofile/ProfileManager.cpp`).

The C++ code is embedded shallowly:

* The filesystem visible to the manager is a flat association list from
  path strings to file contents (`FS`).  Qt file primitives
  (`QFile::exists / remove / copy / rename`, truncating writes) become
  pure functions on `FS` returning the same success booleans Qt returns
  (`QFile::remove` and `QFile::rename` fail on a missing source,
  `QFile::copy` and `QFile::rename` fail when the destination exists).
* A file's bytes either parse as a profile document, parse as a sync-log
  document, or are garbage (`Content`).
* Profiles are finite trees (`PTree`): name, type, key/value pairs, the
  `loaded` flag, and the ordered sub-profile children.  `Profile.cpp`
  itself is not part of the sources under verification, so the few
  `Profile` member functions used by `ProfileManager.cpp`
  (`key`, `subProfile`, `subProfileNames`, `isProtected`, `merge`,
  `allSubProfiles`, `setLoaded`) are modelled from the specification
  and are marked as such in their doc comments.
* Functions translated from `ProfileManager.cpp` keep the source names
  (`findProfileFile`, `load` as `pmLoad`, `matchKey`, `matchProfile`,
  `save`, `remove`, `rename`, `expand`, `syncProfile`, `loadLog`).
  Path strings are built by the same concatenations as the source
  (`QDir::separator()` is `/`).
-/

namespace Buteo

/-- `FORMAT_EXT` from ProfileManager.cpp. -/
def FORMAT_EXT : String := ".xml"

/-- `BACKUP_EXT` from ProfileManager.cpp. -/
def BACKUP_EXT : String := ".bak"

/-- `LOG_EXT` from ProfileManager.cpp. -/
def LOG_EXT : String := ".log"

/-- `LOG_DIRECTORY` from ProfileManager.cpp. -/
def LOG_DIRECTORY : String := "logs"

/-- `Profile::TYPE_SYNC` ("sync"). -/
def TYPE_SYNC : String := "sync"

/-- `QDir::separator()`. -/
def sep : String := "/"

/-- A profile tree: the shape produced by the profile factory from a
profile XML document.  `subs` are the nested sub-profile elements,
`loaded` is the expander's flag (false on freshly parsed trees). -/
inductive PTree where
  | node (name type : String) (keys : List (String × String)) (loaded : Bool)
      (subs : List PTree)
deriving Repr

/-- Profile name. -/
def PTree.name : PTree → String
  | .node n _ _ _ _ => n

/-- Profile type string. -/
def PTree.type : PTree → String
  | .node _ t _ _ _ => t

/-- Key/value pairs of the profile. -/
def PTree.keys : PTree → List (String × String)
  | .node _ _ k _ _ => k

/-- The `loaded` flag (`Profile::isLoaded`). -/
def PTree.loaded : PTree → Bool
  | .node _ _ _ l _ => l

/-- Direct sub-profiles. -/
def PTree.subs : PTree → List PTree
  | .node _ _ _ _ s => s

/-- A sync log document: profile name plus the ordered result entries
(the payload of an entry is irrelevant here and kept opaque). -/
structure SyncLogM where
  profileName : String
  results : List String
deriving Repr, DecidableEq

/-- Contents of one file: a parseable profile document, a parseable
sync-log document, or bytes that fail XML parsing. -/
inductive Content where
  | prof (p : PTree)
  | log (l : SyncLogM)
  | raw
deriving Repr

/-- The filesystem: an association list from absolute path to content.
Later writes shadow earlier entries (lookup finds the first match). -/
abbrev FS : Type := List (String × Content)

/-- Read a file. -/
def fsLookup (fs : FS) (path : String) : Option Content :=
  (List.find? (fun e => e.1 = path) fs).map (fun e => e.2)

/-- `QFile::exists`. -/
def fsExists (fs : FS) (path : String) : Bool :=
  (fsLookup fs path).isSome

/-- Drop every entry for `path`. -/
def fsErase (fs : FS) (path : String) : FS :=
  List.filter (fun e => ¬ e.1 = path) fs

/-- `QFile::remove`: true iff the file existed (and is then gone). -/
def fsRemoveF (fs : FS) (path : String) : Bool × FS :=
  if fsExists fs path then (true, fsErase fs path) else (false, fs)

/-- Truncating write (`QIODevice::WriteOnly | Truncate`). -/
def fsWrite (fs : FS) (path : String) (c : Content) : FS :=
  (path, c) :: fsErase fs path

/-- `QFile::copy`: fails when the source is missing or the destination
already exists. -/
def fsCopy (fs : FS) (src dst : String) : Bool × FS :=
  match fsLookup fs src with
  | none => (false, fs)
  | some c => if fsExists fs dst then (false, fs) else (true, (dst, c) :: fs)

/-- `QFile::rename`: fails when the source is missing or the destination
already exists. -/
def fsRename (fs : FS) (src dst : String) : Bool × FS :=
  match fsLookup fs src with
  | none => (false, fs)
  | some c =>
      if fsExists fs dst then (false, fs)
      else (true, (dst, c) :: fsErase fs src)

/-- The private state of `ProfileManager`: the two profile roots
(`iPrimaryPath`, `iSecondaryPath`) and the filesystem they live on. -/
structure PMState where
  fs : FS
  primary : String
  secondary : String

/-- `ProfileManagerPrivate::findProfileFile` (ProfileManager.cpp
lines 1022-1040): primary path if it exists, else primary if the
secondary does not exist either, else the secondary path. -/
def findProfileFile (st : PMState) (aName aType : String) : String :=
  let fileName := aType ++ sep ++ aName ++ FORMAT_EXT
  let primaryPath := st.primary ++ sep ++ fileName
  let secondaryPath := st.secondary ++ sep ++ fileName
  if fsExists st.fs primaryPath then primaryPath
  else if ¬ fsExists st.fs secondaryPath then primaryPath
  else secondaryPath

/-- `ProfileManagerPrivate::parseFile`: true (here: `some` document)
iff the file exists, opens, and parses as a profile document. -/
def parseFile (fs : FS) (path : String) : Option PTree :=
  match fsLookup fs path with
  | some (.prof p) => some p
  | _ => none

/-- `ProfileManagerPrivate::restoreBackupIfFound`: when a `.bak` file
exists, restore the profile file from it if the backup parses,
otherwise delete the backup. -/
def restoreBackupIfFound (fs : FS) (profilePath backupPath : String) : FS :=
  if fsExists fs backupPath then
    match parseFile fs backupPath with
    | some _ =>
        let fs1 := (fsRemoveF fs profilePath).2
        (fsCopy fs1 backupPath profilePath).2
    | none => (fsRemoveF fs backupPath).2
  else fs

/-- `ProfileManagerPrivate::load`: resolve the path, restore from a
backup if one is present, parse, and on success delete any remaining
backup.  The profile factory is the identity on the parsed tree (the
document already is the tree in this embedding). -/
def pmLoad (st : PMState) (aName aType : String) : Option PTree × FS :=
  let profilePath := findProfileFile st aName aType
  let backupProfilePath := profilePath ++ BACKUP_EXT
  let fs1 := restoreBackupIfFound st.fs profilePath backupProfilePath
  match parseFile fs1 profilePath with
  | some doc =>
      let fs2 := if fsExists fs1 backupProfilePath
                 then (fsRemoveF fs1 backupProfilePath).2 else fs1
      (some doc, fs2)
  | none => (none, fs1)

/-- Modelled from the spec: `Profile::key` (Profile.cpp is not among
the sources) — the profile's value for a key, null (`none`) when the
key is absent; a key present with an empty value is distinct from an
absent key. -/
def keyLookup (p : PTree) (k : String) : Option String :=
  (List.find? (fun e => e.1 = k) p.keys).map (fun e => e.2)

/-- Modelled from the spec: `Profile::isProtected` (Profile.cpp is not
among the sources) — the boolean flag derived from the reserved key
`protected`, true when that key holds the literal string `true`. -/
def isProtected (p : PTree) : Bool :=
  keyLookup p "protected" = some "true"

/-- `ProfileManager::remove` (ProfileManager.cpp lines 700-732): load
without expanding, refuse when the profile is protected, delete the
primary profile file; when that deletion succeeds the source then
executes `success = QFile::remove(logFilePath)`, overwriting the
success flag with the log deletion result — preserved here verbatim. -/
def remove (st : PMState) (aName aType : String) : Bool × FS :=
  let filePath := st.primary ++ sep ++ aType ++ sep ++ aName ++ FORMAT_EXT
  match pmLoad st aName aType with
  | (some p, fs1) =>
      if ¬ isProtected p then
        let r := fsRemoveF fs1 filePath
        if r.1 then
          let logFilePath := st.primary ++ sep ++ aType ++ sep ++
            LOG_DIRECTORY ++ sep ++ aName ++ LOG_EXT ++ FORMAT_EXT
          fsRemoveF r.2 logFilePath
        else (false, r.2)
      else (false, fs1)
  | (none, fs1) => (false, fs1)

/-- `ProfileManager::save` (ProfileManager.cpp lines 596-634).
`writeOk` is the outcome of the truncating write performed by
`writeProfileFile` (it succeeds iff the file opens for writing);
`constructProfileDocument` is the identity on the tree and `mkpath` has
no effect on the flat filesystem.  The source passes
`(aProfile.type(), aProfile.name())` to `findProfileFile`, whose
parameters are `(aName, aType)`; that argument order is preserved. -/
def save (writeOk : Bool) (st : PMState) (aProfile : PTree) : Bool × FS :=
  let profilePath := st.primary ++ sep ++ aProfile.type ++ sep ++
    aProfile.name ++ FORMAT_EXT
  let oldProfilePath := findProfileFile st aProfile.type aProfile.name
  let backupPath := profilePath ++ BACKUP_EXT
  let fs1 := if fsExists st.fs oldProfilePath
             then (fsCopy st.fs oldProfilePath backupPath).2 else st.fs
  if writeOk then
    let fs2 := fsWrite fs1 profilePath (.prof aProfile)
    (true, (fsRemoveF fs2 backupPath).2)
  else (false, fs1)

/-- `ProfileManager::SearchCriteria::Type`. -/
inductive MatchType where
  | EQUAL
  | NOT_EQUAL
  | EXISTS
  | NOT_EXISTS
deriving Repr, DecidableEq

/-- `ProfileManager::SearchCriteria`: one search predicate.  Empty
strings stand for unset (null) QStrings, as tested by `isEmpty()`. -/
structure SearchCriteria where
  iType : MatchType
  iSubProfileName : String
  iSubProfileType : String
  iKey : String
  iValue : String
deriving Repr, DecidableEq

/-- Modelled from the spec: `Profile::subProfile` (Profile.cpp is not
among the sources) — locate the direct sub-profile with the given name
and type. -/
def subProfile (p : PTree) (n t : String) : Option PTree :=
  List.find? (fun s => s.name = n ∧ s.type = t) p.subs

/-- Modelled from the spec: `Profile::subProfileNames` (Profile.cpp is
not among the sources) — the names of the direct sub-profiles of the
given type. -/
def subProfileNames (p : PTree) (t : String) : List String :=
  (List.filter (fun s => s.type = t) p.subs).map PTree.name

/-- `ProfileManagerPrivate::matchKey` (ProfileManager.cpp lines
249-310): the per-criterion key test against one profile. -/
def matchKey (aProfile : PTree) (aCriteria : SearchCriteria) : Bool :=
  if ¬ aCriteria.iKey = "" then
    match keyLookup aProfile aCriteria.iKey with
    | none =>
        if aCriteria.iType = MatchType.NOT_EXISTS ∨
            aCriteria.iType = MatchType.NOT_EQUAL
        then true else false
    | some value =>
        match aCriteria.iType with
        | .EXISTS => true
        | .NOT_EXISTS => false
        | .EQUAL => value = aCriteria.iValue
        | .NOT_EQUAL => ¬ value = aCriteria.iValue
  else
    if aCriteria.iType = MatchType.NOT_EXISTS then false else true

/-- `ProfileManagerPrivate::matchProfile` (ProfileManager.cpp lines
180-247): dispatch on sub-profile name / sub-profile type, then apply
the key test; the foreach-with-break over the sub-profiles of the
requested type is `List.any`. -/
def matchProfile (aProfile : PTree) (aCriteria : SearchCriteria) : Bool :=
  if ¬ aCriteria.iSubProfileName = "" then
    match subProfile aProfile aCriteria.iSubProfileName
        aCriteria.iSubProfileType with
    | some testProfile => matchKey testProfile aCriteria
    | none => aCriteria.iType = MatchType.NOT_EXISTS
  else if ¬ aCriteria.iSubProfileType = "" then
    let names := subProfileNames aProfile aCriteria.iSubProfileType
    if ¬ names = [] then
      names.any (fun sn =>
        match subProfile aProfile sn aCriteria.iSubProfileType with
        | some testProfile => matchKey testProfile aCriteria
        | none => false)
    else aCriteria.iType = MatchType.NOT_EXISTS
  else matchKey aProfile aCriteria

/-- The criteria loop of `getSyncProfilesByData` (lines 514-525):
`matched` starts true and the loop breaks at the first criterion that
fails `matchProfile`. -/
def matchAllCriteria (p : PTree) : List SearchCriteria → Bool
  | [] => true
  | c :: rest => if matchProfile p c then matchAllCriteria p rest else false

/-- `ProfileManager::getSyncProfilesByData(const QList<SearchCriteria>&)`
(ProfileManager.cpp lines 506-539): keep exactly the profiles matching
every criterion.  The enumeration produced by `allSyncProfiles()` is
passed in as `allProfiles` (no null entries: `allSyncProfiles` appends
only non-null results). -/
def getSyncProfilesByData (allProfiles : List PTree)
    (aCriteria : List SearchCriteria) : List PTree :=
  List.filter (fun p => matchAllCriteria p aCriteria) allProfiles

/-- The key test exactly as the specification words it (§4.6),
for comparison against the source-derived `matchKey`. -/
def matchKeySpec (p : PTree) (c : SearchCriteria) : Bool :=
  if c.iKey = "" then ¬ c.iType = MatchType.NOT_EXISTS
  else
    match keyLookup p c.iKey with
    | none => c.iType = MatchType.NOT_EXISTS ∨ c.iType = MatchType.NOT_EQUAL
    | some v =>
        match c.iType with
        | .EXISTS => true
        | .NOT_EXISTS => false
        | .EQUAL => v = c.iValue
        | .NOT_EQUAL => ¬ v = c.iValue

/-- Modelled from the spec: `Profile::allSubProfiles` applied to a
forest — every sub-profile node at every nesting level, preorder. -/
def forestNodes : List PTree → List PTree
  | [] => []
  | PTree.node n t k l subs :: rest =>
      PTree.node n t k l subs :: (forestNodes subs ++ forestNodes rest)

/-- Modelled from the spec: `Profile::allSubProfiles` — all sub-profile
entries of the profile, at every nesting level. -/
def allSubProfiles (p : PTree) : List PTree := forestNodes p.subs

/-- The (name, type) pair identifying a (sub-)profile. -/
def pairOf (p : PTree) : String × String := (p.name, p.type)

/-- The identifying pairs of every node of a forest. -/
def forestPairs (f : List PTree) : List (String × String) :=
  (forestNodes f).map pairOf

/-- Sequential filter of the external's sub-profiles: keep those whose
(name, type) is not yet present anywhere in the root and has not been
taken by an earlier element of the same merge. -/
def dedupNewSubs (root : PTree) :
    List PTree → List (String × String) → List PTree
  | [], _ => []
  | s :: rest, taken =>
      if pairOf s ∈ forestPairs root.subs ∨ pairOf s ∈ taken then
        dedupNewSubs root rest taken
      else s :: dedupNewSubs root rest (pairOf s :: taken)

/-- Modelled from the spec: the sub-profiles referenced in the external
profile but not yet present in the root — the ones `merge` appends. -/
def newSubs (root e : PTree) : List PTree :=
  dedupNewSubs root e.subs []

/-- Modelled from the spec: additive-with-overwrite key overlay — the
external value replaces any existing value for the same key. -/
def overlayKeys (target ext : List (String × String)) :
    List (String × String) :=
  ext ++ List.filter (fun kv => ¬ ∃ kv2 ∈ ext, kv2.1 = kv.1) target

/-- Modelled from the spec: the effect of `merge` at the located node:
keys overlaid, the fresh sub-profile references appended. -/
def overlayNode (node e : PTree) (toAdd : List PTree) : PTree :=
  PTree.node node.name node.type (overlayKeys node.keys e.keys) node.loaded
    (node.subs ++ toAdd)

/-- Modelled from the spec: locate — in preorder — the first node of the
forest whose (name, type) equals the external's, and overlay it; the
boolean reports whether a matching node was found. -/
def forestMerge (n t : String) (e : PTree) (toAdd : List PTree) :
    List PTree → List PTree × Bool
  | [] => ([], false)
  | PTree.node sn stp sk sl ssubs :: rest =>
      if sn = n ∧ stp = t then
        (overlayNode (PTree.node sn stp sk sl ssubs) e toAdd :: rest, true)
      else
        match forestMerge n t e toAdd ssubs with
        | (subs1, true) =>
            (PTree.node sn stp sk sl subs1 :: rest, true)
        | (_, false) =>
            match forestMerge n t e toAdd rest with
            | (rest1, b) => (PTree.node sn stp sk sl ssubs :: rest1, b)

/-- Modelled from the spec: `root.merge(external)` — locate the
sub-profile inside the root whose (name, type) equals the external's
and overlay the external's keys and fresh sub-profile references onto
that node. -/
def mergeProfile (root e : PTree) : PTree :=
  PTree.node root.name root.type root.keys root.loaded
    (forestMerge e.name e.type e (newSubs root e) root.subs).1

/-- `sub->setLoaded(true)` on the nodes carrying the given pair. -/
def forestMark (n t : String) : List PTree → List PTree
  | [] => []
  | PTree.node sn stp sk sl ssubs :: rest =>
      PTree.node sn stp sk (sl || (sn = n ∧ stp = t)) (forestMark n t ssubs) ::
        forestMark n t rest

/-- The profile files visible to the expander, keyed by (name, type):
the view of `ProfileManager::profile` that `expand` loads sub-profile
definitions through. -/
abbrev Store : Type := List ((String × String) × PTree)

/-- Load the profile file for (name, type) from the store. -/
def storeLookup (store : Store) (n t : String) : Option PTree :=
  (List.find? (fun ent => ent.1 = (n, t)) store).map (fun ent => ent.2)

/-- One snapshot entry of the `allSubProfiles()` list iterated by
`expand`: the sub-profile's name, type and loaded flag. -/
structure SubView where
  name : String
  type : String
  loaded : Bool
deriving Repr, DecidableEq

/-- The snapshot view of a sub-profile node. -/
def subView (p : PTree) : SubView := ⟨p.name, p.type, p.loaded⟩

/-- One step of the foreach body of `ProfileManager::expand`
(ProfileManager.cpp lines 745-766): a sub-profile already marked loaded
is skipped; otherwise its file is loaded, merged into the root when
found, and the sub-profile is marked loaded. -/
def passStep (store : Store) (root : PTree) (s : SubView) : PTree :=
  if s.loaded then root
  else
    let merged := match storeLookup store s.name s.type with
      | some loadedProfile => mergeProfile root loadedProfile
      | none => root
    PTree.node merged.name merged.type merged.keys merged.loaded
      (forestMark s.name s.type merged.subs)

/-- One full foreach pass of `expand` over the snapshot of
`allSubProfiles()`. -/
def expandPass (store : Store) (root : PTree) : PTree :=
  ((allSubProfiles root).map subView).foldl (passStep store) root

/-- The while loop of `ProfileManager::expand` (lines 740-773) with
explicit fuel: `none` means the fuel ran out before the loop condition
`subCount > prevSubCount` became false. -/
def expandLoopF (store : Store) : Nat → PTree → Nat → Option PTree
  | 0, _, _ => none
  | fuel + 1, root, prev =>
      if (allSubProfiles root).length > prev then
        expandLoopF store fuel (expandPass store root)
          (allSubProfiles root).length
      else some root

/-- Number of nodes of a profile tree. -/
def treeSize (p : PTree) : Nat := (forestNodes [p]).length

/-- Total node count of all sub-profile references of all store files:
an upper bound on the growth any single merge can cause. -/
def totalRefsSize (store : Store) : Nat :=
  ((store.flatMap (fun ent => ent.2.subs)).map treeSize).sum

/-- Every (name, type) pair referenced by some store file. -/
def refPairs (store : Store) : List (String × String) :=
  (store.flatMap (fun ent => ent.2.subs)).map pairOf

/-- How many distinct referenced pairs are still absent from the root:
merge can append a sub-profile only for such a pair. -/
def missingCount (store : Store) (root : PTree) : Nat :=
  ((refPairs store).dedup.filter
    (fun q => ¬ q ∈ forestPairs root.subs)).length

/-- Decreasing potential of the expansion loop. -/
def potential (store : Store) (root : PTree) : Nat :=
  (allSubProfiles root).length + totalRefsSize store * missingCount store root

/-- Enough fuel for the expansion loop to reach its fixpoint. -/
def fuelBound (store : Store) (root : PTree) : Nat :=
  potential store root + 2

/-- `aProfile.setLoaded(true)` on the root object itself. -/
def setLoadedTop (p : PTree) : PTree :=
  PTree.node p.name p.type p.keys true p.subs

/-- `ProfileManager::expand` (ProfileManager.cpp lines 734-776): return
at once when the profile is already expanded, otherwise run the merge
loop and mark the profile loaded.  The fuel `fuelBound` always suffices
(`expandLoop_reaches_fixpoint` below), so the `getD` fallback never
fires. -/
def expand (store : Store) (aProfile : PTree) : PTree :=
  if aProfile.loaded then aProfile
  else
    setLoadedTop
      ((expandLoopF store (fuelBound store aProfile) aProfile 0).getD aProfile)

/-- The `SyncProfile` object handled by `syncProfile`: the profile tree
after the checked static cast, plus its attached log (`SyncProfile::log`
returns null for a freshly factory-created profile). -/
structure SyncProfileM where
  prof : PTree
  log : Option SyncLogM
deriving Repr

/-- `ProfileManagerPrivate::loadLog` (ProfileManager.cpp lines
149-178): read `<primary>/sync/logs/<name>.log.xml`; null when the file
is missing or its content does not parse as a sync-log document. -/
def loadLog (st : PMState) (aProfileName : String) : Option SyncLogM :=
  let fileName := st.primary ++ sep ++ TYPE_SYNC ++ sep ++ LOG_DIRECTORY ++
    sep ++ aProfileName ++ LOG_EXT ++ FORMAT_EXT
  match fsLookup st.fs fileName with
  | some (.log l) => some l
  | _ => none

/-- `ProfileManager::syncProfile` (ProfileManager.cpp lines 343-373):
load the profile with type sync; when the declared type is sync, run the
Expander (whose sub-profile loads go through `store`, the view of
`ProfileManager::profile` the expander uses) and, since the freshly
loaded profile carries no log, attach one — the existing log, or a
freshly created empty log carrying only the profile name.  When the
declared type differs, the loaded profile is discarded and null is
returned. -/
def syncProfile (store : Store) (st : PMState) (aName : String) :
    Option SyncProfileM × FS :=
  match pmLoad st aName TYPE_SYNC with
  | (some p, fs1) =>
      if p.type = TYPE_SYNC then
        let sp : SyncProfileM := ⟨p, none⟩
        let expanded := expand store sp.prof
        let sp2 : SyncProfileM :=
          if sp.log = none then
            ⟨expanded,
             some (match loadLog ⟨fs1, st.primary, st.secondary⟩ aName with
                   | some l => l
                   | none => ⟨aName, []⟩)⟩
          else ⟨expanded, sp.log⟩
        (some sp2, fs1)
      else (none, fs1)
  | (none, fs1) => (none, fs1)

/-- `ProfileManager::rename` (ProfileManager.cpp lines 825-853): rename
the sync profile file; on success rename the log file, rolling the
profile rename back when the log rename fails. -/
def rename (st : PMState) (aName aNewName : String) : Bool × FS :=
  let source := st.primary ++ sep ++ TYPE_SYNC ++ sep ++ aName ++ FORMAT_EXT
  let destination := st.primary ++ sep ++ TYPE_SYNC ++ sep ++ aNewName ++
    FORMAT_EXT
  let r1 := fsRename st.fs source destination
  if r1.1 then
    let sourceLog := st.primary ++ sep ++ TYPE_SYNC ++ sep ++ LOG_DIRECTORY ++
      sep ++ aName ++ LOG_EXT ++ FORMAT_EXT
    let destinationLog := st.primary ++ sep ++ TYPE_SYNC ++ sep ++
      LOG_DIRECTORY ++ sep ++ aNewName ++ LOG_EXT ++ FORMAT_EXT
    let r2 := fsRename r1.2 sourceLog destinationLog
    if r2.1 then (true, r2.2)
    else (false, (fsRename r2.2 destination source).2)
  else (false, r1.2)

end Buteo

namespace Buteo

/-- C4: the path resolver returns the primary path if it exists, else
the secondary path if that exists, else the primary path; and when both
roots contain the file, `load` returns the content from the primary. -/
theorem resolver_overlay_precedence (st : PMState) (n t : String) :
    (fsExists st.fs (st.primary ++ sep ++ (t ++ sep ++ n ++ FORMAT_EXT)) = true →
      findProfileFile st n t = st.primary ++ sep ++ (t ++ sep ++ n ++ FORMAT_EXT))
  ∧ (fsExists st.fs (st.primary ++ sep ++ (t ++ sep ++ n ++ FORMAT_EXT)) = false →
     fsExists st.fs (st.secondary ++ sep ++ (t ++ sep ++ n ++ FORMAT_EXT)) = true →
      findProfileFile st n t = st.secondary ++ sep ++ (t ++ sep ++ n ++ FORMAT_EXT))
  ∧ (fsExists st.fs (st.primary ++ sep ++ (t ++ sep ++ n ++ FORMAT_EXT)) = false →
     fsExists st.fs (st.secondary ++ sep ++ (t ++ sep ++ n ++ FORMAT_EXT)) = false →
      findProfileFile st n t = st.primary ++ sep ++ (t ++ sep ++ n ++ FORMAT_EXT))
  ∧ (∀ P : PTree,
      fsExists st.fs (st.secondary ++ sep ++ (t ++ sep ++ n ++ FORMAT_EXT)) = true →
      fsLookup st.fs (st.primary ++ sep ++ (t ++ sep ++ n ++ FORMAT_EXT)) =
        some (.prof P) →
      fsExists st.fs
        (st.primary ++ sep ++ (t ++ sep ++ n ++ FORMAT_EXT) ++ BACKUP_EXT) = false →
      (pmLoad st n t).1 = some P) := by
  refine ⟨?_, ?_, ?_, ?_⟩
  · intro h
    simp [findProfileFile, h]
  · intro h1 h2
    simp [findProfileFile, h1, h2]
  · intro h1 h2
    simp [findProfileFile, h1, h2]
  · intro P hsec hprim hbak
    have hpe : fsExists st.fs (st.primary ++ sep ++ (t ++ sep ++ n ++ FORMAT_EXT)) = true := by
      simp [fsExists, hprim]
    have hfind : findProfileFile st n t =
        st.primary ++ sep ++ (t ++ sep ++ n ++ FORMAT_EXT) := by
      simp [findProfileFile, hpe]
    simp only [pmLoad, hfind]
    rw [restoreBackupIfFound, hbak]
    simp [parseFile, hprim, hbak]

/-- Witness for C4: a concrete store with the file in both roots. -/
theorem resolver_overlay_precedence_witness :
    findProfileFile
      ⟨[("p/sync/a.xml", Content.prof (PTree.node "a" "sync" [] false [])),
        ("s/sync/a.xml", Content.prof (PTree.node "a" "sync" [("o","sys")] false []))],
       "p", "s"⟩ "a" "sync" = "p/sync/a.xml"
  ∧ (pmLoad
      ⟨[("p/sync/a.xml", Content.prof (PTree.node "a" "sync" [] false [])),
        ("s/sync/a.xml", Content.prof (PTree.node "a" "sync" [("o","sys")] false []))],
       "p", "s"⟩ "a" "sync").1 = some (PTree.node "a" "sync" [] false []) := by
  have h := resolver_overlay_precedence
    ⟨[("p/sync/a.xml", Content.prof (PTree.node "a" "sync" [] false [])),
      ("s/sync/a.xml", Content.prof (PTree.node "a" "sync" [("o","sys")] false []))],
     "p", "s"⟩ "a" "sync"
  refine ⟨h.1 (by decide), h.2.2.2 _ (by decide) (by rfl) (by decide)⟩

/-- When no backup file sits next to the resolved profile file, loading
leaves the filesystem unchanged. -/
theorem pmLoad_fs_of_no_backup (st : PMState) (n t : String)
    (hb : fsExists st.fs (findProfileFile st n t ++ BACKUP_EXT) = false) :
    (pmLoad st n t).2 = st.fs := by
  simp only [pmLoad, restoreBackupIfFound, hb, if_false, Bool.false_eq_true]
  cases hp : parseFile st.fs (findProfileFile st n t) <;>
    simp [hp, hb]

/-- C3: removing a protected profile returns false and leaves the
filesystem — in particular the profile file — unchanged. -/
theorem remove_protected (st : PMState) (n t : String) (p : PTree)
    (hb : fsExists st.fs (findProfileFile st n t ++ BACKUP_EXT) = false)
    (hp : (pmLoad st n t).1 = some p)
    (hprot : isProtected p = true) :
    remove st n t = (false, st.fs) := by
  have h2 : (pmLoad st n t).2 = st.fs := pmLoad_fs_of_no_backup st n t hb
  have hpair : pmLoad st n t = (some p, st.fs) := by
    rw [show pmLoad st n t = ((pmLoad st n t).1, (pmLoad st n t).2) from rfl,
      hp, h2]
  rw [remove, hpair]
  simp [hprot]

/-- Witness for C3: a concrete protected profile stays on disk. -/
theorem remove_protected_witness :
    remove
      ⟨[("p/sync/k.xml",
         Content.prof (PTree.node "k" "sync" [("protected", "true")] false []))],
       "p", "s"⟩ "k" "sync" =
    (false,
     [("p/sync/k.xml",
       Content.prof (PTree.node "k" "sync" [("protected", "true")] false []))]) := by
  exact remove_protected
    ⟨[("p/sync/k.xml",
       Content.prof (PTree.node "k" "sync" [("protected", "true")] false []))],
     "p", "s"⟩ "k" "sync"
    (PTree.node "k" "sync" [("protected", "true")] false [])
    (by decide) (by rfl) (by rfl)

/-- C2 counter-evidence: for a concrete unprotected profile with no log
file, `remove` deletes the primary profile file yet returns false,
because the source overwrites the success flag with the result of
`QFile::remove` on the (absent) log file. -/
theorem remove_success_overwritten_by_log_removal :
    (remove
      ⟨[("p/sync/a.xml", Content.prof (PTree.node "a" "sync" [] false []))],
       "p", "s"⟩ "a" "sync").1 = false
  ∧ fsExists
      (remove
        ⟨[("p/sync/a.xml", Content.prof (PTree.node "a" "sync" [] false []))],
         "p", "s"⟩ "a" "sync").2 "p/sync/a.xml" = false := by
  exact ⟨by rfl, by rfl⟩

/-- C1 counter-evidence: `save` passes `(type, name)` to the resolver
`findProfileFile(aName, aType)`, so with a profile named `foo` of type
`sync` whose current file `p/sync/foo.xml` exists (first conjunct, the
resolver applied to the profile's own name and type), the old-file
check looks at `p/foo/sync.xml` instead: no backup is created, and
after a failed write no backup is left for the next load to restore
(the filesystem is completely unchanged). -/
theorem save_swapped_resolver_arguments :
    fsExists
      [("p/sync/foo.xml",
        Content.prof (PTree.node "foo" "sync" [("k", "old")] false []))]
      (findProfileFile
        ⟨[("p/sync/foo.xml",
           Content.prof (PTree.node "foo" "sync" [("k", "old")] false []))],
         "p", "s"⟩ "foo" "sync") = true
  ∧ (save false
      ⟨[("p/sync/foo.xml",
         Content.prof (PTree.node "foo" "sync" [("k", "old")] false []))],
       "p", "s"⟩
      (PTree.node "foo" "sync" [("k", "new")] false [])) =
    (false,
     [("p/sync/foo.xml",
       Content.prof (PTree.node "foo" "sync" [("k", "old")] false []))]) := by
  exact ⟨by rfl, by rfl⟩

/-- The break-at-first-failure loop accepts exactly the profiles on
which every criterion holds. -/
theorem matchAllCriteria_eq_true_iff (p : PTree) (cs : List SearchCriteria) :
    matchAllCriteria p cs = true ↔ ∀ c ∈ cs, matchProfile p c = true := by
  induction cs with
  | nil => simp [matchAllCriteria]
  | cons c rest ih =>
      by_cases h : matchProfile p c <;> simp [matchAllCriteria, h, ih]

/-- C5: a profile enumerated by `allSyncProfiles` is in the result of
`getSyncProfilesByData(criteria)` iff every criterion's per-criterion
predicate `matchProfile` holds against it — the criteria combine by
logical AND. -/
theorem search_and_semantics (allProfiles : List PTree)
    (cs : List SearchCriteria) (P : PTree) :
    P ∈ getSyncProfilesByData allProfiles cs ↔
      P ∈ allProfiles ∧ ∀ c ∈ cs, matchProfile P c = true := by
  simp [getSyncProfilesByData, List.mem_filter, matchAllCriteria_eq_true_iff]

/-- C6: the source key test agrees with the specification's table for
every profile and criterion: empty key matches unless `NOT_EXISTS`;
an absent value matches exactly `NOT_EXISTS` and `NOT_EQUAL`; a present
value makes `EXISTS` match, `NOT_EXISTS` fail, `EQUAL` compare equal
and `NOT_EQUAL` compare different. -/
theorem matchKey_agrees_with_spec (p : PTree) (c : SearchCriteria) :
    matchKey p c = matchKeySpec p c := by
  by_cases hk : c.iKey = ""
  · cases htype : c.iType <;> simp [matchKey, matchKeySpec, hk, htype]
  · cases hv : keyLookup p c.iKey <;> cases htype : c.iType <;>
      simp [matchKey, matchKeySpec, hk, hv, htype]

/-- Accessor on the constructor. -/
@[simp] theorem PTree.name_node (n t : String) (k : List (String × String))
    (l : Bool) (s : List PTree) : (PTree.node n t k l s).name = n := rfl

/-- Accessor on the constructor. -/
@[simp] theorem PTree.type_node (n t : String) (k : List (String × String))
    (l : Bool) (s : List PTree) : (PTree.node n t k l s).type = t := rfl

/-- Accessor on the constructor. -/
@[simp] theorem PTree.keys_node (n t : String) (k : List (String × String))
    (l : Bool) (s : List PTree) : (PTree.node n t k l s).keys = k := rfl

/-- Accessor on the constructor. -/
@[simp] theorem PTree.loaded_node (n t : String) (k : List (String × String))
    (l : Bool) (s : List PTree) : (PTree.node n t k l s).loaded = l := rfl

/-- Accessor on the constructor. -/
@[simp] theorem PTree.subs_node (n t : String) (k : List (String × String))
    (l : Bool) (s : List PTree) : (PTree.node n t k l s).subs = s := rfl

/-- Rebuilding a tree from its fields gives the tree back. -/
theorem PTree.eta (p : PTree) :
    PTree.node p.name p.type p.keys p.loaded p.subs = p := by
  cases p
  rfl

/-- Unfolding `forestNodes` on a cons cell. -/
theorem forestNodes_cons (s : PTree) (rest : List PTree) :
    forestNodes (s :: rest) = s :: (forestNodes s.subs ++ forestNodes rest) := by
  cases s
  simp [forestNodes, PTree.subs]

/-- `forestNodes` distributes over append. -/
theorem forestNodes_append : ∀ f g : List PTree,
    forestNodes (f ++ g) = forestNodes f ++ forestNodes g
  | [], g => by simp [forestNodes]
  | s :: rest, g => by
      simp [forestNodes_cons, forestNodes_append rest g]

/-- Unfolding `forestPairs` on a cons cell. -/
theorem forestPairs_cons (s : PTree) (rest : List PTree) :
    forestPairs (s :: rest) =
      pairOf s :: (forestPairs s.subs ++ forestPairs rest) := by
  simp [forestPairs, forestNodes_cons]

/-- `forestPairs` distributes over append. -/
theorem forestPairs_append (f g : List PTree) :
    forestPairs (f ++ g) = forestPairs f ++ forestPairs g := by
  simp [forestPairs, forestNodes_append]

/-- Marking nodes loaded does not change the identifying pairs. -/
theorem forestPairs_forestMark (n t : String) : ∀ f : List PTree,
    forestPairs (forestMark n t f) = forestPairs f
  | [] => by simp [forestMark, forestPairs, forestNodes]
  | PTree.node sn stp sk sl ssubs :: rest => by
      have h1 := forestPairs_forestMark n t ssubs
      have h2 := forestPairs_forestMark n t rest
      simp [forestMark, forestPairs_cons, PTree.subs, pairOf,
        PTree.name, PTree.type, h1, h2]

/-- The number of nodes equals the number of identifying pairs. -/
theorem forestPairs_length (f : List PTree) :
    (forestPairs f).length = (forestNodes f).length := by
  simp [forestPairs]

/-- Each tree of a forest appears among the forest's nodes. -/
theorem self_mem_forestNodes : ∀ (f : List PTree), ∀ s ∈ f, s ∈ forestNodes f
  | s :: rest, x, hx => by
      cases hx with
      | head => simp [forestNodes_cons]
      | tail _ h =>
          simp only [forestNodes_cons, List.mem_cons, List.mem_append]
          exact Or.inr (Or.inr (self_mem_forestNodes rest x h))

/-- The pair of each tree of a forest is among the forest's pairs. -/
theorem self_pair_mem_forestPairs (f : List PTree) (s : PTree) (hs : s ∈ f) :
    pairOf s ∈ forestPairs f := by
  exact List.mem_map_of_mem pairOf (self_mem_forestNodes f s hs)

/-- The merge locator finds a node iff the pair occurs in the forest. -/
theorem forestMerge_found_iff (n t : String) (e : PTree) (toAdd : List PTree) :
    ∀ f : List PTree,
      (forestMerge n t e toAdd f).2 = true ↔ (n, t) ∈ forestPairs f
  | [] => by simp [forestMerge, forestPairs, forestNodes]
  | PTree.node sn stp sk sl ssubs :: rest => by
      have h1 := forestMerge_found_iff n t e toAdd ssubs
      have h2 := forestMerge_found_iff n t e toAdd rest
      by_cases hm : sn = n ∧ stp = t
      · simp [forestMerge, hm, forestPairs_cons, pairOf, PTree.name,
          PTree.type, hm.1, hm.2]
      · rcases hs : forestMerge n t e toAdd ssubs with ⟨subs1, b1⟩
        cases b1
        · rcases hr : forestMerge n t e toAdd rest with ⟨rest1, b2⟩
          have hp : ¬ (n, t) = (sn, stp) := by
            intro hq
            exact hm ⟨(Prod.mk.injEq _ _ _ _ ▸ hq).1.symm,
              (Prod.mk.injEq _ _ _ _ ▸ hq).2.symm⟩
          simp [forestMerge, hm, hs, hr, forestPairs_cons, pairOf,
            PTree.name, PTree.type, PTree.subs, ← h1, ← h2, hs, hr, hp]
        · have hp : (n, t) ∈ forestPairs ssubs := by
            rw [← h1, hs]
          simp [forestMerge, hm, hs, forestPairs_cons, PTree.subs, hp]

/-- When the merge locator finds nothing, the forest is unchanged. -/
theorem forestMerge_not_found (n t : String) (e : PTree) (toAdd : List PTree) :
    ∀ f : List PTree,
      (forestMerge n t e toAdd f).2 = false → (forestMerge n t e toAdd f).1 = f
  | [] => by simp [forestMerge]
  | PTree.node sn stp sk sl ssubs :: rest => by
      intro hfalse
      by_cases hm : sn = n ∧ stp = t
      · simp [forestMerge, hm] at hfalse
      · rcases hs : forestMerge n t e toAdd ssubs with ⟨subs1, b1⟩
        cases b1
        · rcases hr : forestMerge n t e toAdd rest with ⟨rest1, b2⟩
          have e1 : subs1 = ssubs := by
            have := forestMerge_not_found n t e toAdd ssubs
            rw [hs] at this
            exact this rfl
          cases b2
          · have e2 : rest1 = rest := by
              have := forestMerge_not_found n t e toAdd rest
              rw [hr] at this
              exact this rfl
            simp [forestMerge, hm, hs, hr, e2]
          · simp [forestMerge, hm, hs, hr] at hfalse
        · simp [forestMerge, hm, hs] at hfalse

/-- Shuffle used below: appending the fresh trees inside a forest is a
permutation of appending them at the end. -/
theorem append_shuffle_perm (S T R : List (String × String)) :
    ((S ++ T) ++ R).Perm ((S ++ R) ++ T) := by
  rw [List.append_assoc, List.append_assoc]
  exact List.Perm.append_left S List.perm_append_comm

/-- When the merge locator finds a node, the pairs of the result are a
permutation of the original pairs plus the pairs of the appended
trees. -/
theorem forestMerge_found_pairs (n t : String) (e : PTree) (toAdd : List PTree) :
    ∀ f : List PTree,
      (forestMerge n t e toAdd f).2 = true →
      (forestPairs (forestMerge n t e toAdd f).1).Perm
        (forestPairs f ++ forestPairs toAdd)
  | [] => by simp [forestMerge]
  | PTree.node sn stp sk sl ssubs :: rest => by
      intro htrue
      by_cases hm : sn = n ∧ stp = t
      · have key := append_shuffle_perm (forestPairs ssubs)
          (forestPairs toAdd) (forestPairs rest)
        simpa [forestMerge, hm, overlayNode, forestPairs_cons,
          forestPairs_append, pairOf, PTree.name, PTree.type, PTree.subs,
          PTree.keys, PTree.loaded] using key.cons (sn, stp)
      · rcases hs : forestMerge n t e toAdd ssubs with ⟨subs1, b1⟩
        cases b1
        · rcases hr : forestMerge n t e toAdd rest with ⟨rest1, b2⟩
          cases b2
          · simp [forestMerge, hm, hs, hr] at htrue
          · have ih := forestMerge_found_pairs n t e toAdd rest
            rw [hr] at ih
            have ih2 := ih rfl
            have chain : (forestPairs ssubs ++ forestPairs rest1).Perm
                ((forestPairs ssubs ++ forestPairs rest) ++ forestPairs toAdd) := by
              have step := List.Perm.append_left (forestPairs ssubs) ih2
              rw [← List.append_assoc] at step
              exact step
            simpa [forestMerge, hm, hs, hr, forestPairs_cons, pairOf,
              PTree.name, PTree.type, PTree.subs] using chain.cons (sn, stp)
        · have ih := forestMerge_found_pairs n t e toAdd ssubs
          rw [hs] at ih
          have ih2 := ih rfl
          have chain : (forestPairs subs1 ++ forestPairs rest).Perm
              ((forestPairs ssubs ++ forestPairs rest) ++ forestPairs toAdd) := by
            have step := List.Perm.append_right (forestPairs rest) ih2
            exact step.trans (append_shuffle_perm _ _ _)
          simpa [forestMerge, hm, hs, forestPairs_cons, pairOf,
            PTree.name, PTree.type, PTree.subs] using chain.cons (sn, stp)

/-- Each tree kept by the sequential filter comes from the input list,
has a pair absent from the root, and a pair outside `taken`. -/
theorem dedupNewSubs_mem (root : PTree) :
    ∀ (l : List PTree) (taken : List (String × String)),
      ∀ s ∈ dedupNewSubs root l taken,
        s ∈ l ∧ ¬ pairOf s ∈ forestPairs root.subs ∧ ¬ pairOf s ∈ taken
  | [], _ => by simp [dedupNewSubs]
  | s0 :: rest, taken => by
      intro s hs
      by_cases hc : pairOf s0 ∈ forestPairs root.subs ∨ pairOf s0 ∈ taken
      · rw [dedupNewSubs, if_pos hc] at hs
        have := dedupNewSubs_mem root rest taken s hs
        exact ⟨List.mem_cons_of_mem _ this.1, this.2.1, this.2.2⟩
      · rw [dedupNewSubs, if_neg hc] at hs
        push_neg at hc
        rcases List.mem_cons.1 hs with hhead | htail
        · subst hhead
          exact ⟨List.mem_cons_self _ _, hc.1, hc.2⟩
        · have := dedupNewSubs_mem root rest (pairOf s0 :: taken) s htail
          refine ⟨List.mem_cons_of_mem _ this.1, this.2.1, fun hmem => ?_⟩
          exact this.2.2 (List.mem_cons_of_mem _ hmem)

/-- The pairs kept by the sequential filter are pairwise distinct. -/
theorem dedupNewSubs_nodup (root : PTree) :
    ∀ (l : List PTree) (taken : List (String × String)),
      ((dedupNewSubs root l taken).map pairOf).Nodup
  | [], _ => by simp [dedupNewSubs]
  | s0 :: rest, taken => by
      by_cases hc : pairOf s0 ∈ forestPairs root.subs ∨ pairOf s0 ∈ taken
      · rw [dedupNewSubs, if_pos hc]
        exact dedupNewSubs_nodup root rest taken
      · rw [dedupNewSubs, if_neg hc]
        refine List.nodup_cons.2 ⟨?_, dedupNewSubs_nodup root rest _⟩
        intro hmem
        rcases List.mem_map.1 hmem with ⟨s, hsmem, hpair⟩
        have := dedupNewSubs_mem root rest (pairOf s0 :: taken) s hsmem
        exact this.2.2 (hpair ▸ List.mem_cons_self _ _)

/-- Every input pair is either already present in the root, already
taken, or among the kept pairs. -/
theorem dedupNewSubs_covers (root : PTree) :
    ∀ (l : List PTree) (taken : List (String × String)),
      ∀ s ∈ l,
        pairOf s ∈ forestPairs root.subs ∨ pairOf s ∈ taken ∨
          pairOf s ∈ (dedupNewSubs root l taken).map pairOf
  | [], _ => by simp
  | s0 :: rest, taken => by
      intro s hs
      by_cases hc : pairOf s0 ∈ forestPairs root.subs ∨ pairOf s0 ∈ taken
      · rw [dedupNewSubs, if_pos hc]
        rcases List.mem_cons.1 hs with hhead | htail
        · subst hhead
          rcases hc with h | h
          · exact Or.inl h
          · exact Or.inr (Or.inl h)
        · exact dedupNewSubs_covers root rest taken s htail
      · rw [dedupNewSubs, if_neg hc]
        rcases List.mem_cons.1 hs with hhead | htail
        · subst hhead
          exact Or.inr (Or.inr (by simp))
        · rcases dedupNewSubs_covers root rest (pairOf s0 :: taken) s htail with
            h | h | h
          · exact Or.inl h
          · rcases List.mem_cons.1 h with heq | htaken
            · exact Or.inr (Or.inr (by simp [heq]))
            · exact Or.inr (Or.inl htaken)
          · exact Or.inr (Or.inr (by simp [h]))

/-- When every input pair is already present in the root, nothing is
kept. -/
theorem dedupNewSubs_nil_of_present (root : PTree) :
    ∀ (l : List PTree) (taken : List (String × String)),
      (∀ s ∈ l, pairOf s ∈ forestPairs root.subs) →
      dedupNewSubs root l taken = []
  | [], _ => by simp [dedupNewSubs]
  | s0 :: rest, taken => by
      intro h
      rw [dedupNewSubs, if_pos (Or.inl (h s0 (List.mem_cons_self _ _)))]
      exact dedupNewSubs_nil_of_present root rest taken
        (fun s hs => h s (List.mem_cons_of_mem _ hs))

/-- Sub-profile references of a store file: their tree sizes are bounded
by the total reference size, and their pairs occur in `refPairs`. -/
theorem storeLookup_subs (store : Store) (n t : String) (e : PTree)
    (h : storeLookup store n t = some e) :
    ∀ s ∈ e.subs, treeSize s ≤ totalRefsSize store ∧ pairOf s ∈ refPairs store := by
  intro s hs
  rcases Option.map_eq_some'.1 h with ⟨ent, hfind, hent⟩
  have hmem : ent ∈ store := List.mem_of_find?_eq_some hfind
  have hflat : s ∈ store.flatMap (fun ent => ent.2.subs) :=
    List.mem_flatMap.2 ⟨ent, hmem, hent ▸ hs⟩
  constructor
  · exact List.single_le_sum (fun x _ => Nat.zero_le x) _
      (List.mem_map_of_mem treeSize hflat)
  · exact List.mem_map_of_mem pairOf hflat

/-- Node count of a forest as the sum of its tree sizes. -/
theorem forestNodes_length_eq_sum : ∀ f : List PTree,
    (forestNodes f).length = (f.map treeSize).sum
  | [] => by simp [forestNodes]
  | s :: rest => by
      have ih := forestNodes_length_eq_sum rest
      simp [forestNodes_cons, treeSize, forestNodes, ih]
      cases s
      simp [forestNodes_cons, PTree.subs]
      omega

/-- Counting step: when the appended pairs are fresh, distinct,
referenced by the store, and present afterwards, the missing-pair count
drops by at least their number. -/
theorem missing_drop (store : Store) (P0 P1 tops : List (String × String))
    (hsub : ∀ q ∈ P0, q ∈ P1)
    (htops1 : ∀ q ∈ tops, q ∈ P1)
    (htops0 : ∀ q ∈ tops, ¬ q ∈ P0)
    (htopsD : ∀ q ∈ tops, q ∈ refPairs store)
    (hnodupt : tops.Nodup) :
    ((refPairs store).dedup.filter (fun q => ¬ q ∈ P1)).length + tops.length ≤
      ((refPairs store).dedup.filter (fun q => ¬ q ∈ P0)).length := by
  have hnodup1 : ((refPairs store).dedup.filter (fun q => ¬ q ∈ P1)).Nodup :=
    (List.nodup_dedup _).filter _
  have hdisj : ((refPairs store).dedup.filter
      (fun q => ¬ q ∈ P1)).Disjoint tops := by
    intro q hq hqt
    have hnot := (List.mem_filter.1 hq).2
    simp only [decide_eq_true_eq] at hnot
    exact hnot (htops1 q hqt)
  have happ : (((refPairs store).dedup.filter (fun q => ¬ q ∈ P1)) ++
      tops).Nodup := hnodup1.append hnodupt hdisj
  have hsubset : (((refPairs store).dedup.filter (fun q => ¬ q ∈ P1)) ++ tops) ⊆
      (refPairs store).dedup.filter (fun q => ¬ q ∈ P0) := by
    intro q hq
    rcases List.mem_append.1 hq with h | h
    · have h1 := List.mem_filter.1 h
      refine List.mem_filter.2 ⟨h1.1, ?_⟩
      have h2 := h1.2
      simp only [decide_eq_true_eq] at h2 ⊢
      exact fun hq0 => h2 (hsub q hq0)
    · refine List.mem_filter.2 ⟨List.mem_dedup.2 (htopsD q h), ?_⟩
      simp only [decide_eq_true_eq]
      exact htops0 q h
  have hlen := (happ.subperm hsubset).length_le
  simpa using hlen

/-- Pure arithmetic of the potential step. -/
theorem potential_arith (a A M m1 m0 k : Nat) (hA : A ≤ k * M)
    (hk : m1 + k ≤ m0) : a + A + M * m1 ≤ a + M * m0 := by
  have h1 : M * m1 + M * k ≤ M * m0 := by
    calc M * m1 + M * k = M * (m1 + k) := (Nat.mul_add M m1 k).symm
    _ ≤ M * m0 := Nat.mul_le_mul_left M hk
  have h2 : A ≤ M * k := by
    rw [Nat.mul_comm]
    exact hA
  linarith

/-- Merging an external profile loaded from the store never increases
the expansion potential. -/
theorem mergeProfile_potential (store : Store) (root e : PTree) (n t : String)
    (he : storeLookup store n t = some e) :
    potential store (mergeProfile root e) ≤ potential store root := by
  cases hb : (forestMerge e.name e.type e (newSubs root e) root.subs).2
  · have hF : (forestMerge e.name e.type e (newSubs root e) root.subs).1 =
        root.subs := forestMerge_not_found _ _ _ _ root.subs hb
    have hroot : mergeProfile root e = root := by
      unfold mergeProfile
      rw [hF, PTree.eta]
    rw [hroot]
  · have hperm := forestMerge_found_pairs e.name e.type e (newSubs root e)
      root.subs hb
    have hmem : ∀ s ∈ newSubs root e,
        s ∈ e.subs ∧ ¬ pairOf s ∈ forestPairs root.subs := by
      intro s hs
      have h := dedupNewSubs_mem root e.subs [] s hs
      exact ⟨h.1, h.2.1⟩
    have hlen : (forestNodes
        (forestMerge e.name e.type e (newSubs root e) root.subs).1).length =
        (forestNodes root.subs).length +
          ((newSubs root e).map treeSize).sum := by
      rw [← forestPairs_length, hperm.length_eq, List.length_append,
        forestPairs_length, forestPairs_length,
        forestNodes_length_eq_sum (newSubs root e)]
    have hA : ((newSubs root e).map treeSize).sum ≤
        (newSubs root e).length * totalRefsSize store := by
      have hbd : ∀ x ∈ (newSubs root e).map treeSize,
          x ≤ totalRefsSize store := by
        intro x hx
        rcases List.mem_map.1 hx with ⟨s, hs, hxs⟩
        exact hxs ▸ (storeLookup_subs store n t e he s (hmem s hs).1).1
      have hsum := List.sum_le_card_nsmul ((newSubs root e).map treeSize)
        (totalRefsSize store) hbd
      simpa [smul_eq_mul] using hsum
    have hkey := missing_drop store (forestPairs root.subs)
      (forestPairs (forestMerge e.name e.type e (newSubs root e) root.subs).1)
      ((newSubs root e).map pairOf)
      (fun q hq => hperm.mem_iff.2 (List.mem_append_left _ hq))
      (fun q hq => by
        rcases List.mem_map.1 hq with ⟨s, hs, hqs⟩
        exact hperm.mem_iff.2 (List.mem_append_right _
          (hqs ▸ self_pair_mem_forestPairs _ s hs)))
      (fun q hq => by
        rcases List.mem_map.1 hq with ⟨s, hs, hqs⟩
        exact hqs ▸ (hmem s hs).2)
      (fun q hq => by
        rcases List.mem_map.1 hq with ⟨s, hs, hqs⟩
        exact hqs ▸ (storeLookup_subs store n t e he s (hmem s hs).1).2)
      (dedupNewSubs_nodup root e.subs [])
    rw [List.length_map] at hkey
    have hm1eq : potential store (mergeProfile root e) =
        (forestNodes
          (forestMerge e.name e.type e (newSubs root e) root.subs).1).length +
          totalRefsSize store *
            ((refPairs store).dedup.filter (fun q => ¬ q ∈ forestPairs
              (forestMerge e.name e.type e (newSubs root e)
                root.subs).1)).length := by
      simp [potential, allSubProfiles, missingCount, mergeProfile]
    have hm0eq : potential store root =
        (forestNodes root.subs).length + totalRefsSize store *
          ((refPairs store).dedup.filter
            (fun q => ¬ q ∈ forestPairs root.subs)).length := by
      simp [potential, allSubProfiles, missingCount]
    rw [hm1eq, hm0eq, hlen]
    exact potential_arith _ _ _ _ _ _ hA hkey

/-- Marking sub-profiles loaded does not change the potential. -/
theorem potential_mark (store : Store) (p : PTree) (a b : String) :
    potential store (PTree.node p.name p.type p.keys p.loaded
      (forestMark a b p.subs)) = potential store p := by
  have hp := forestPairs_forestMark a b p.subs
  have hlen : (forestNodes (forestMark a b p.subs)).length =
      (forestNodes p.subs).length := by
    rw [← forestPairs_length, hp, forestPairs_length]
  simp [potential, allSubProfiles, missingCount, hp, hlen]

/-- One foreach step of the expander never increases the potential. -/
theorem passStep_potential (store : Store) (root : PTree) (s : SubView) :
    potential store (passStep store root s) ≤ potential store root := by
  by_cases hl : s.loaded
  · simp [passStep, hl]
  · cases hlook : storeLookup store s.name s.type with
    | none =>
        simp only [passStep, hl, if_false, hlook, Bool.false_eq_true]
        exact le_of_eq (potential_mark store root s.name s.type)
    | some e =>
        simp only [passStep, hl, if_false, hlook, Bool.false_eq_true]
        calc potential store (PTree.node (mergeProfile root e).name
              (mergeProfile root e).type (mergeProfile root e).keys
              (mergeProfile root e).loaded
              (forestMark s.name s.type (mergeProfile root e).subs)) =
            potential store (mergeProfile root e) :=
          potential_mark store (mergeProfile root e) s.name s.type
        _ ≤ potential store root :=
          mergeProfile_potential store root e s.name s.type hlook

/-- A whole foreach pass never increases the potential. -/
theorem foldl_passStep_potential (store : Store) :
    ∀ (l : List SubView) (root : PTree),
      potential store (l.foldl (passStep store) root) ≤ potential store root
  | [], root => le_refl _
  | s :: rest, root => by
      simp only [List.foldl_cons]
      exact le_trans
        (foldl_passStep_potential store rest (passStep store root s))
        (passStep_potential store root s)

/-- `expandPass` never increases the potential. -/
theorem expandPass_potential (store : Store) (root : PTree) :
    potential store (expandPass store root) ≤ potential store root :=
  foldl_passStep_potential store _ root

/-- The loop exits by its own condition before the fuel runs out. -/
theorem expandLoop_reaches_fixpoint (store : Store) :
    ∀ (fuel : Nat) (root : PTree) (prev B : Nat),
      potential store root ≤ B → prev ≤ B → B + 2 ≤ fuel + prev →
      (expandLoopF store fuel root prev).isSome = true
  | 0, root, prev, B => by
      intro h1 h2 h3
      omega
  | fuel + 1, root, prev, B => by
      intro h1 h2 h3
      by_cases hc : (allSubProfiles root).length > prev
      · rw [expandLoopF, if_pos hc]
        have hple : (allSubProfiles root).length ≤ potential store root := by
          unfold potential
          exact Nat.le_add_right _ _
        exact expandLoop_reaches_fixpoint store fuel (expandPass store root)
          (allSubProfiles root).length B
          (le_trans (expandPass_potential store root) h1)
          (le_trans hple h1) (by omega)
      · rw [expandLoopF, if_neg hc]
        rfl

/-- Overlaying the same external keys twice equals overlaying once. -/
theorem overlayKeys_idem (k ek : List (String × String)) :
    overlayKeys (overlayKeys k ek) ek = overlayKeys k ek := by
  unfold overlayKeys
  rw [List.filter_append]
  have h1 : List.filter
      (fun kv => decide (¬ ∃ kv2 ∈ ek, kv2.1 = kv.1)) ek = [] := by
    rw [List.filter_eq_nil_iff]
    intro kv hkv
    simp only [decide_eq_true_eq, not_not]
    exact ⟨kv, hkv, rfl⟩
  have h2 : List.filter (fun kv => decide (¬ ∃ kv2 ∈ ek, kv2.1 = kv.1))
      (List.filter (fun kv => decide (¬ ∃ kv2 ∈ ek, kv2.1 = kv.1)) k) =
      List.filter (fun kv => decide (¬ ∃ kv2 ∈ ek, kv2.1 = kv.1)) k := by
    rw [List.filter_filter]
    simp
  rw [h1, h2, List.nil_append]

/-- Overlaying the same external onto an already-overlaid node with
nothing left to append is the identity. -/
theorem overlayNode_stable (s e : PTree) (toAdd : List PTree) :
    overlayNode (overlayNode s e toAdd) e [] = overlayNode s e toAdd := by
  simp [overlayNode, overlayKeys_idem]

/-- Re-running the merge locator with nothing to append on the result of
a successful merge leaves that result unchanged. -/
theorem forestMerge_stable (n t : String) (e : PTree) (toAdd : List PTree) :
    ∀ f : List PTree, (forestMerge n t e toAdd f).2 = true →
      forestMerge n t e [] (forestMerge n t e toAdd f).1 =
        ((forestMerge n t e toAdd f).1, true)
  | [] => by simp [forestMerge]
  | PTree.node sn stp sk sl ssubs :: rest => by
      intro htrue
      by_cases hm : sn = n ∧ stp = t
      · simp [forestMerge, hm, overlayNode, overlayKeys_idem]
      · rcases hs : forestMerge n t e toAdd ssubs with ⟨subs1, b1⟩
        cases b1
        · rcases hr : forestMerge n t e toAdd rest with ⟨rest1, b2⟩
          cases b2
          · simp [forestMerge, hm, hs, hr] at htrue
          · have ih := forestMerge_stable n t e toAdd rest
            rw [hr] at ih
            have ih2 := ih rfl
            have hnot : ¬ (n, t) ∈ forestPairs ssubs := by
              rw [← forestMerge_found_iff n t e toAdd ssubs, hs]
              simp
            have h2 : (forestMerge n t e ([] : List PTree) ssubs).2 = false := by
              rw [← Bool.not_eq_true, forestMerge_found_iff]
              exact hnot
            have h3 : (forestMerge n t e ([] : List PTree) ssubs).1 = ssubs :=
              forestMerge_not_found n t e [] ssubs h2
            rcases h4 : forestMerge n t e ([] : List PTree) ssubs with ⟨u, b3⟩
            rw [h4] at h2 h3
            cases b3
            · have h5 : u = ssubs := by simpa using h3
              subst h5
              have ih3 : forestMerge n t e ([] : List PTree) rest1 =
                  (rest1, true) := by simpa using ih2
              simp only [forestMerge, hm, hs, hr, if_neg hm]
              simp [forestMerge, hm, h4, ih3]
            · simp at h2
        · have ih := forestMerge_stable n t e toAdd ssubs
          rw [hs] at ih
          have ih2 := ih rfl
          simp [forestMerge, hm, hs, ih2]

/-- After a successful merge every sub-profile reference of the external
is present in the root, so a second merge has nothing to append. -/
theorem newSubs_after_merge (root e : PTree)
    (hb : (forestMerge e.name e.type e (newSubs root e) root.subs).2 = true) :
    newSubs (mergeProfile root e) e = [] := by
  apply dedupNewSubs_nil_of_present
  intro s hs
  have hperm := forestMerge_found_pairs e.name e.type e (newSubs root e)
    root.subs hb
  rcases dedupNewSubs_covers root e.subs [] s hs with h | h | h
  · simpa [mergeProfile] using
      hperm.mem_iff.2 (List.mem_append_left _ h)
  · cases h
  · rcases List.mem_map.1 h with ⟨u, hu, hq⟩
    simpa [mergeProfile] using hperm.mem_iff.2 (List.mem_append_right _
      (hq ▸ self_pair_mem_forestPairs _ u hu))

/-- The spec-modelled merge is idempotent. -/
theorem mergeProfile_idem (root e : PTree) :
    mergeProfile (mergeProfile root e) e = mergeProfile root e := by
  cases hb : (forestMerge e.name e.type e (newSubs root e) root.subs).2
  · have hF := forestMerge_not_found e.name e.type e (newSubs root e)
      root.subs hb
    have hroot : mergeProfile root e = root := by
      unfold mergeProfile
      rw [hF, PTree.eta]
    rw [hroot]
    exact hroot
  · have htoAdd2 := newSubs_after_merge root e hb
    have hstable := forestMerge_stable e.name e.type e (newSubs root e)
      root.subs hb
    have h1 : mergeProfile (mergeProfile root e) e =
        PTree.node (mergeProfile root e).name (mergeProfile root e).type
          (mergeProfile root e).keys (mergeProfile root e).loaded
          (forestMerge e.name e.type e (newSubs (mergeProfile root e) e)
            (mergeProfile root e).subs).1 := rfl
    rw [h1, htoAdd2]
    have h2 : (mergeProfile root e).subs =
        (forestMerge e.name e.type e (newSubs root e) root.subs).1 := rfl
    rw [h2, hstable]
    rfl

/-- The expander leaves the profile marked loaded. -/
theorem expand_loaded (store : Store) (p : PTree) :
    (expand store p).loaded = true := by
  unfold expand
  by_cases hl : p.loaded
  · simp [hl]
  · simp [hl, setLoadedTop]

/-- C8: running the Expander twice yields the same result as running it
once — the profile is marked loaded by the first run, so the second run
is a no-op — and the underlying merge operation is idempotent. -/
theorem expansion_idempotent :
    (∀ (store : Store) (p : PTree), (expand store p).loaded = true)
  ∧ (∀ (store : Store) (p : PTree),
      expand store (expand store p) = expand store p)
  ∧ (∀ root e : PTree,
      mergeProfile (mergeProfile root e) e = mergeProfile root e) := by
  refine ⟨expand_loaded, ?_, mergeProfile_idem⟩
  intro store p
  generalize hq : expand store p = q
  have hql : q.loaded = true := hq ▸ expand_loaded store p
  unfold expand
  simp [hql]

/-- C9: the expander's fixpoint loop terminates — within the computed
fuel the loop exits by its own condition; an iteration that does not
strictly increase the number of entries returned by `allSubProfiles` is
the last one; and a sub-profile already marked loaded is skipped by the
loop body, so reference cycles cannot cause non-termination. -/
theorem expander_fixpoint_terminates (store : Store) (root : PTree) :
    (expandLoopF store (fuelBound store root) root 0).isSome = true
  ∧ (∀ (fuel prev : Nat) (r : PTree),
      (allSubProfiles r).length > prev ∨
        expandLoopF store (fuel + 1) r prev = some r)
  ∧ (∀ (r : PTree) (n t : String), passStep store r ⟨n, t, true⟩ = r) := by
  refine ⟨?_, ?_, ?_⟩
  · exact expandLoop_reaches_fixpoint store (fuelBound store root) root 0
      (potential store root) (le_refl _) (Nat.zero_le _)
      (by unfold fuelBound; omega)
  · intro fuel prev r
    by_cases hc : (allSubProfiles r).length > prev
    · exact Or.inl hc
    · refine Or.inr ?_
      rw [expandLoopF, if_neg hc]
  · intro r n t
    simp [passStep]

/-- Lookup after a cons cell. -/
theorem fsLookup_cons (k : String) (c : Content) (fs : FS) (q : String) :
    fsLookup ((k, c) :: fs) q = if k = q then some c else fsLookup fs q := by
  by_cases h : k = q <;> simp [fsLookup, List.find?_cons, h]

/-- Erasing a path removes it from lookup. -/
theorem fsLookup_erase_self : ∀ (fs : FS) (p : String),
    fsLookup (fsErase fs p) p = none
  | [], _ => rfl
  | (k, c) :: fs, p => by
      by_cases hkp : k = p
      · simp only [fsErase, List.filter_cons]
        rw [if_neg (by simp [hkp])]
        exact fsLookup_erase_self fs p
      · simp only [fsErase, List.filter_cons]
        rw [if_pos (by simp [hkp])]
        rw [fsLookup_cons, if_neg hkp]
        exact fsLookup_erase_self fs p

/-- Erasing one path leaves other paths untouched. -/
theorem fsLookup_erase_ne : ∀ (fs : FS) (p q : String), ¬ q = p →
    fsLookup (fsErase fs p) q = fsLookup fs q
  | [], _, _, _ => rfl
  | (k, c) :: fs, p, q, h => by
      by_cases hkp : k = p
      · have hkq : ¬ k = q := by
          rw [hkp]
          exact fun hq => h hq.symm
        simp only [fsErase, List.filter_cons]
        rw [if_neg (by simp [hkp])]
        rw [fsLookup_cons, if_neg hkq]
        exact fsLookup_erase_ne fs p q h
      · simp only [fsErase, List.filter_cons]
        rw [if_pos (by simp [hkp])]
        rw [fsLookup_cons, fsLookup_cons]
        by_cases hkq : k = q
        · rw [if_pos hkq, if_pos hkq]
        · rw [if_neg hkq, if_neg hkq]
          exact fsLookup_erase_ne fs p q h

/-- A file does not exist exactly when its lookup is empty. -/
theorem fsExists_false_iff (fs : FS) (p : String) :
    fsExists fs p = false ↔ fsLookup fs p = none := by
  cases h : fsLookup fs p <;> simp [fsExists, h]

/-- C7: `syncProfile` loads with type sync; when the declared type is
sync it returns the expanded profile with a log attached — the existing
log, or a fresh empty one carrying only the profile name; when the
declared type differs the loaded profile is discarded and null is
returned. -/
theorem syncProfile_spec (store : Store) (st : PMState) (nm : String)
    (p : PTree) (fs1 : FS) (h : pmLoad st nm TYPE_SYNC = (some p, fs1)) :
    (p.type = TYPE_SYNC →
      (syncProfile store st nm).1 =
        some ⟨expand store p,
          some (match loadLog ⟨fs1, st.primary, st.secondary⟩ nm with
                | some l => l
                | none => ⟨nm, []⟩)⟩)
  ∧ (¬ p.type = TYPE_SYNC → (syncProfile store st nm).1 = none) := by
  constructor
  · intro ht
    simp [syncProfile, h, ht]
  · intro ht
    simp [syncProfile, h, ht]

/-- Witness for C7: a concrete sync profile with no log file gets the
fresh empty log carrying only its name; the declared type matches. -/
theorem syncProfile_spec_witness :
    (syncProfile []
      ⟨[("p/sync/a.xml", Content.prof (PTree.node "a" "sync" [] false []))],
       "p", "s"⟩ "a").1 =
      some ⟨expand [] (PTree.node "a" "sync" [] false []),
            some ⟨"a", []⟩⟩ := by
  have h := syncProfile_spec []
    ⟨[("p/sync/a.xml", Content.prof (PTree.node "a" "sync" [] false []))],
     "p", "s"⟩ "a" (PTree.node "a" "sync" [] false [])
    [("p/sync/a.xml", Content.prof (PTree.node "a" "sync" [] false []))]
    (by rfl)
  have h2 := h.1 (by rfl)
  exact h2.trans (by rfl)

/-- C10: when the sync profile file exists under the primary root but
no log file exists for the old name, `rename` returns false and the
profile file is left (or rolled back) in place under its old path.  The
path-aliasing side condition rules out a new name that spells the old
log path. -/
theorem rename_requires_log (st : PMState) (aName aNewName : String)
    (hprof : fsExists st.fs
      (st.primary ++ sep ++ TYPE_SYNC ++ sep ++ aName ++ FORMAT_EXT) = true)
    (hlog : fsExists st.fs
      (st.primary ++ sep ++ TYPE_SYNC ++ sep ++ LOG_DIRECTORY ++ sep ++
        aName ++ LOG_EXT ++ FORMAT_EXT) = false)
    (hne : ¬ (st.primary ++ sep ++ TYPE_SYNC ++ sep ++ aNewName ++ FORMAT_EXT =
      st.primary ++ sep ++ TYPE_SYNC ++ sep ++ LOG_DIRECTORY ++ sep ++
        aName ++ LOG_EXT ++ FORMAT_EXT)) :
    (rename st aName aNewName).1 = false ∧
      fsLookup (rename st aName aNewName).2
        (st.primary ++ sep ++ TYPE_SYNC ++ sep ++ aName ++ FORMAT_EXT) =
      fsLookup st.fs
        (st.primary ++ sep ++ TYPE_SYNC ++ sep ++ aName ++ FORMAT_EXT) := by
  by_cases hD : fsExists st.fs
      (st.primary ++ sep ++ TYPE_SYNC ++ sep ++ aNewName ++ FORMAT_EXT)
  · rcases hS : fsLookup st.fs
        (st.primary ++ sep ++ TYPE_SYNC ++ sep ++ aName ++ FORMAT_EXT) with
      _ | c
    · rw [fsExists, hS] at hprof
      simp at hprof
    · have h1 : fsRename st.fs
          (st.primary ++ sep ++ TYPE_SYNC ++ sep ++ aName ++ FORMAT_EXT)
          (st.primary ++ sep ++ TYPE_SYNC ++ sep ++ aNewName ++ FORMAT_EXT) =
          (false, st.fs) := by
        simp [fsRename, hS, hD]
      simp [rename, h1, hS]
  · rcases hS : fsLookup st.fs
        (st.primary ++ sep ++ TYPE_SYNC ++ sep ++ aName ++ FORMAT_EXT) with
      _ | c
    · rw [fsExists, hS] at hprof
      simp at hprof
    · have hSD : ¬ (st.primary ++ sep ++ TYPE_SYNC ++ sep ++ aName ++
          FORMAT_EXT) =
          st.primary ++ sep ++ TYPE_SYNC ++ sep ++ aNewName ++ FORMAT_EXT := by
        intro hsd
        rw [← hsd, fsExists, hS] at hD
        simp at hD
      have h1 : fsRename st.fs
          (st.primary ++ sep ++ TYPE_SYNC ++ sep ++ aName ++ FORMAT_EXT)
          (st.primary ++ sep ++ TYPE_SYNC ++ sep ++ aNewName ++ FORMAT_EXT) =
          (true,
           (st.primary ++ sep ++ TYPE_SYNC ++ sep ++ aNewName ++ FORMAT_EXT, c)
             :: fsErase st.fs
               (st.primary ++ sep ++ TYPE_SYNC ++ sep ++ aName ++
                 FORMAT_EXT)) := by
        simp [fsRename, hS, hD]
      have hLS2 : fsLookup
          ((st.primary ++ sep ++ TYPE_SYNC ++ sep ++ aNewName ++ FORMAT_EXT, c)
            :: fsErase st.fs
              (st.primary ++ sep ++ TYPE_SYNC ++ sep ++ aName ++ FORMAT_EXT))
          (st.primary ++ sep ++ TYPE_SYNC ++ sep ++ LOG_DIRECTORY ++ sep ++
            aName ++ LOG_EXT ++ FORMAT_EXT) = none := by
        rw [fsLookup_cons, if_neg hne]
        by_cases hLSS : (st.primary ++ sep ++ TYPE_SYNC ++ sep ++
            LOG_DIRECTORY ++ sep ++ aName ++ LOG_EXT ++ FORMAT_EXT) =
            st.primary ++ sep ++ TYPE_SYNC ++ sep ++ aName ++ FORMAT_EXT
        · rw [hLSS, fsLookup_erase_self]
        · rw [fsLookup_erase_ne _ _ _ hLSS]
          exact (fsExists_false_iff _ _).1 hlog
      have h2 : fsRename
          ((st.primary ++ sep ++ TYPE_SYNC ++ sep ++ aNewName ++ FORMAT_EXT, c)
            :: fsErase st.fs
              (st.primary ++ sep ++ TYPE_SYNC ++ sep ++ aName ++ FORMAT_EXT))
          (st.primary ++ sep ++ TYPE_SYNC ++ sep ++ LOG_DIRECTORY ++ sep ++
            aName ++ LOG_EXT ++ FORMAT_EXT)
          (st.primary ++ sep ++ TYPE_SYNC ++ sep ++ LOG_DIRECTORY ++ sep ++
            aNewName ++ LOG_EXT ++ FORMAT_EXT) =
          (false,
           (st.primary ++ sep ++ TYPE_SYNC ++ sep ++ aNewName ++ FORMAT_EXT, c)
             :: fsErase st.fs
               (st.primary ++ sep ++ TYPE_SYNC ++ sep ++ aName ++
                 FORMAT_EXT)) := by
        simp [fsRename, hLS2]
      have hD2 : fsLookup
          ((st.primary ++ sep ++ TYPE_SYNC ++ sep ++ aNewName ++ FORMAT_EXT, c)
            :: fsErase st.fs
              (st.primary ++ sep ++ TYPE_SYNC ++ sep ++ aName ++ FORMAT_EXT))
          (st.primary ++ sep ++ TYPE_SYNC ++ sep ++ aNewName ++ FORMAT_EXT) =
          some c := by
        rw [fsLookup_cons, if_pos rfl]
      have hS2 : fsLookup
          ((st.primary ++ sep ++ TYPE_SYNC ++ sep ++ aNewName ++ FORMAT_EXT, c)
            :: fsErase st.fs
              (st.primary ++ sep ++ TYPE_SYNC ++ sep ++ aName ++ FORMAT_EXT))
          (st.primary ++ sep ++ TYPE_SYNC ++ sep ++ aName ++ FORMAT_EXT) =
          none := by
        rw [fsLookup_cons, if_neg (fun hx => hSD hx.symm)]
        exact fsLookup_erase_self _ _
      have h3 : fsRename
          ((st.primary ++ sep ++ TYPE_SYNC ++ sep ++ aNewName ++ FORMAT_EXT, c)
            :: fsErase st.fs
              (st.primary ++ sep ++ TYPE_SYNC ++ sep ++ aName ++ FORMAT_EXT))
          (st.primary ++ sep ++ TYPE_SYNC ++ sep ++ aNewName ++ FORMAT_EXT)
          (st.primary ++ sep ++ TYPE_SYNC ++ sep ++ aName ++ FORMAT_EXT) =
          (true,
           (st.primary ++ sep ++ TYPE_SYNC ++ sep ++ aName ++ FORMAT_EXT, c)
             :: fsErase
               ((st.primary ++ sep ++ TYPE_SYNC ++ sep ++ aNewName ++
                   FORMAT_EXT, c)
                 :: fsErase st.fs
                   (st.primary ++ sep ++ TYPE_SYNC ++ sep ++ aName ++
                     FORMAT_EXT))
               (st.primary ++ sep ++ TYPE_SYNC ++ sep ++ aNewName ++
                 FORMAT_EXT)) := by
        simp [fsRename, hD2, fsExists, hS2]
      have hren : rename st aName aNewName =
          (false,
           (st.primary ++ sep ++ TYPE_SYNC ++ sep ++ aName ++ FORMAT_EXT, c)
             :: fsErase
               ((st.primary ++ sep ++ TYPE_SYNC ++ sep ++ aNewName ++
                   FORMAT_EXT, c)
                 :: fsErase st.fs
                   (st.primary ++ sep ++ TYPE_SYNC ++ sep ++ aName ++
                     FORMAT_EXT))
               (st.primary ++ sep ++ TYPE_SYNC ++ sep ++ aNewName ++
                 FORMAT_EXT)) := by
        simp only [rename, h1]
        simp [h2, h3]
      rw [hren]
      refine ⟨rfl, ?_⟩
      simp [fsLookup_cons, hS]

/-- Witness for C10: renaming a concrete never-synced profile fails and
leaves the file in place. -/
theorem rename_requires_log_witness :
    (rename
      ⟨[("p/sync/a.xml", Content.prof (PTree.node "a" "sync" [] false []))],
       "p", "s"⟩ "a" "b").1 = false
  ∧ fsLookup
      (rename
        ⟨[("p/sync/a.xml", Content.prof (PTree.node "a" "sync" [] false []))],
         "p", "s"⟩ "a" "b").2
      ("p" ++ sep ++ TYPE_SYNC ++ sep ++ "a" ++ FORMAT_EXT) =
    fsLookup
      [("p/sync/a.xml", Content.prof (PTree.node "a" "sync" [] false []))]
      ("p" ++ sep ++ TYPE_SYNC ++ sep ++ "a" ++ FORMAT_EXT) := by
  exact rename_requires_log
    ⟨[("p/sync/a.xml", Content.prof (PTree.node "a" "sync" [] false []))],
     "p", "s"⟩ "a" "b" (by decide) (by decide) (by decide)

end Buteo
